import Mathlib

/-!
# Verification of `prefix-search` (src/main.rs)

A shallow embedding of the `prefix-search` command-line tool and proofs about
it.  Rust strings are modelled as lists of characters (`Str`): Rust's
byte-wise `str::starts_with` becomes `List.isPrefixOf` and `str::len` becomes
`List.length`.  Filesystem paths (`PathBuf`) are lists of components.

The embedding covers, from `main`:
* the longest-first sort of the search terms (line 65),
* the per-file inner term loop with its `break` (lines 86-105),
* the per-path loop with the quiet-mode short-circuit (lines 85-109),
* the per-directory loop (line 79),
* the unseen-term computation and summary output (lines 111-118),
* the exit-code decision (lines 120-127),
and the recursive directory walker `walk_dir` (lines 150-178), including its
skip-on-error behaviour.  `main` is modelled from the point where the
command-line options have been parsed successfully (the `Ok(opts)` branch of
`Opts::try_parse`): the claims below all presuppose a parsed category and
term list.
-/

/-- A Rust string, viewed as its character (byte) sequence. -/
abbrev Str := List Char

/-- A filesystem path (`PathBuf`), as its list of components.  `file_name()`
is the last component (`List.getLast?`). -/
abbrev FsPath := List Str

/-- `terms.sort_by(|a, b| b.len().cmp(&a.len()))` (src/main.rs line 65):
stable sort placing longer terms first. -/
def sortTerms (terms : List Str) : List Str :=
  terms.mergeSort (fun a b => decide (b.length ≤ a.length))

/-- The selection made by the inner term loop (lines 86-105): the first term,
in the given order, that is a byte prefix of `name`
(`filename.starts_with(&*term)`). -/
def findMatch (terms : List Str) (name : Str) : Option Str :=
  terms.find? (fun t => t.isPrefixOf name)

/-- Modelled from the spec: "the longest term among those that are a prefix
of the file's base name (no match when no term is a prefix)".  Spec-side
definition used only to state the refinement claim C1. -/
def longestPrefixMatch (terms : List Str) (name : Str) : Option Str :=
  (terms.filter (fun t => t.isPrefixOf name)).argmax List.length

/-! ## The main search loop (src/main.rs lines 67-127)

The three flags `quiet`, `use_failed_exit_code_if_no_match` and
`only_first_match` are all aliases of `opts.question`; the embedding threads
the single boolean `q`. -/

/-- A line written to stdout. -/
inductive Out where
  | matchLine (matched unmatched : Str) (path : FsPath)
  | foundLine (n : Nat)
  | unmetLine (terms : Finset Str)
deriving DecidableEq

/-- The mutable accumulators of `main`: `n_found`, `seen_terms` and the
stdout lines written so far. -/
structure SearchState where
  n_found : Nat
  seen : Finset Str
  out : List Out
deriving DecidableEq

/-- The state at the top of the directory loop (`n_found = 0`,
`seen_terms = HashSet::new()`, nothing printed). -/
def initState : SearchState := ⟨0, ∅, []⟩

/-- The inner `for term in &terms` loop (lines 86-105): on the first term that
is a prefix of `name`, print the match (unless quiet), bump `n_found`, record
the term in `seen_terms` and `break`; otherwise continue.
`matched_str = &filename[0..term.len()]`, `unmatched_str = &filename[term.len()..]`. -/
def termLoop (q : Bool) (path : FsPath) (name : Str) :
    List Str → SearchState → SearchState
  | [], st => st
  | t :: ts, st =>
    if t.isPrefixOf name then
      ⟨st.n_found + 1, insert t st.seen,
        st.out ++ if q then [] else
          [Out.matchLine (name.take t.length) (name.drop t.length) path]⟩
    else termLoop q path name ts st

/-- The `for path in paths` loop (lines 85-109).  `path.file_name()` is the
last path component; if it is missing the `?` on line 86 aborts `main` with
`Error::CouldntGetFileName` (returned as `some path` in the second
component).  After each file, `if only_first_match && n_found > 0 { break }`
(lines 106-108). -/
def pathLoop (q : Bool) (terms : List Str) :
    List FsPath → SearchState → SearchState × Option FsPath
  | [], st => (st, none)
  | p :: ps, st =>
    match p.getLast? with
    | none => (st, some p)
    | some name =>
      let st' := termLoop q p name terms st
      if q ∧ 0 < st'.n_found then (st', none)
      else pathLoop q terms ps st'

/-- The outer `for dir in &category.dirs` loop (line 79), with each directory
already reduced to the list of paths `walk_dir` returns for it.  Note that the
quiet-mode `break` on line 107 only leaves the inner path loop: the directory
loop always continues with the next directory. -/
def dirLoop (q : Bool) (terms : List Str) :
    List (List FsPath) → SearchState → SearchState × Option FsPath
  | [], st => (st, none)
  | d :: ds, st =>
    match pathLoop q terms d st with
    | (st', some p) => (st', some p)
    | (st', none) => dirLoop q terms ds st'

/-- The observable outcome of a run that got past the category lookup and
never hit `Error::CouldntGetFileName`. -/
structure RunOut where
  stdout : List Out
  n_found : Nat
  seen : Finset Str
  unseen : Finset Str
  exit : Nat
deriving DecidableEq

/-- `main` from the term sort (line 65) to the exit decision (lines 120-127):
sort the terms longest-first, run the search loops, compute
`unseen_terms = terms.filter(|t| !seen_terms.contains(t)).collect::<HashSet>()`,
print the summary unless quiet, and exit with status 0/1 (quiet) or `Ok(())`
(exit status 0, non-quiet).  An `Error::CouldntGetFileName` aborts the run:
`main` returns `Err`, which the runtime reports with exit status 1. -/
def searchMain (q : Bool) (terms0 : List Str) (dirs : List (List FsPath)) :
    Except (SearchState × FsPath) RunOut :=
  let terms := sortTerms terms0
  match dirLoop q terms dirs initState with
  | (st, some p) => Except.error (st, p)
  | (st, none) =>
    let unseen := (terms.filter (fun t => !(decide (t ∈ st.seen)))).toFinset
    let summary := if q then [] else
      Out.foundLine st.n_found ::
        (if unseen = ∅ then [] else [Out.unmetLine unseen])
    Except.ok ⟨st.out ++ summary, st.n_found, st.seen, unseen,
      if q then (if 0 < st.n_found then 0 else 1) else 0⟩

/-! ## The directory walker `walk_dir` (src/main.rs lines 150-178) -/

/-- A directory entry as the walker can observe it.  `badEntry` is an entry
whose iteration returned `Err` (line 160): it is logged and skipped.  A
`dir` carries `readable = false` when `fs::read_dir` on it fails (line 153):
the walker logs the error and returns no paths for it. -/
inductive Node where
  | file (name : Str)
  | dir (name : Str) (readable : Bool) (entries : List Node)
  | badEntry

mutual

/-- One iteration of the `for entry in iter` loop of `walk_dir`
(lines 158-175): a failed entry is skipped, a file is pushed, a directory is
walked recursively (an unreadable one contributes nothing, line 151-157). -/
def walkEntry (dirPath : FsPath) : Node → List FsPath
  | Node.badEntry => []
  | Node.file nm => [dirPath ++ [nm]]
  | Node.dir nm r es => if r then walkEntries (dirPath ++ [nm]) es else []

/-- The whole entry loop of `walk_dir` over a directory's entries, in order
(`paths.extend` / `paths.push` keep entry order). -/
def walkEntries (dirPath : FsPath) : List Node → List FsPath
  | [] => []
  | e :: es => walkEntry dirPath e ++ walkEntries dirPath es

end

/-- A configured root directory: its path, whether `fs::read_dir` succeeds on
it, and its entries. -/
structure DirSpec where
  root : FsPath
  readable : Bool
  entries : List Node

/-- `walk_dir(dir)` on a configured root (lines 150-157): an unreadable root
yields no paths. -/
def dirPaths (d : DirSpec) : List FsPath :=
  if d.readable then walkEntries d.root d.entries else []

/-! ## `main` from the category lookup onwards (src/main.rs lines 61-127) -/

/-- The fatal errors `main` can return (src/main.rs lines 9-16; the
`ConfigDirNotFound` case happens before the part modelled here). -/
inductive MainErr where
  | categoryNotFound (cat : Str)
  | couldntGetFileName (p : FsPath)
deriving DecidableEq

/-- A line written to stderr: the usage message (printed only in the
`Opts::try_parse` error branch, lines 50-54) or a propagated error printed by
the runtime when `main` returns `Err`. -/
inductive ErrLine where
  | usage
  | errMsg (e : MainErr)
deriving DecidableEq

/-- The observable behaviour of the process. -/
structure MainOut where
  stdout : List Out
  stderr : List ErrLine
  exit : Nat
deriving DecidableEq

/-- `main` from the category lookup (line 61) onwards, with the configuration
as an association list from category name to its configured directories.
`config.categories.get(..).ok_or(Error::CategoryNotFound(..))?` aborts before
any directory is walked: the runtime prints the error and exits with status 1.
Otherwise the search runs over `walk_dir` of each configured directory. -/
def fullMain (config : List (Str × List DirSpec)) (cat : Str) (q : Bool)
    (terms0 : List Str) : MainOut :=
  match List.lookup cat config with
  | none => ⟨[], [ErrLine.errMsg (MainErr.categoryNotFound cat)], 1⟩
  | some ds =>
    match searchMain q terms0 (ds.map dirPaths) with
    | Except.error (st, p) =>
        ⟨st.out, [ErrLine.errMsg (MainErr.couldntGetFileName p)], 1⟩
    | Except.ok r => ⟨r.stdout, [], r.exit⟩

/-! ## Specification helpers

These definitions are not part of the embedding; they only serve to state
properties of the run. -/

/-- The process exit status of a run that got past the category lookup: a
propagated `Error::CouldntGetFileName` makes the process exit with status 1. -/
def runExit (q : Bool) (terms0 : List Str) (dirs : List (List FsPath)) : Nat :=
  match searchMain q terms0 dirs with
  | Except.error _ => 1
  | Except.ok r => r.exit

/-- The final value of the `n_found` accumulator of a run. -/
def runCount (q : Bool) (terms0 : List Str) (dirs : List (List FsPath)) : Nat :=
  match searchMain q terms0 dirs with
  | Except.error (st, _) => st.n_found
  | Except.ok r => r.n_found

/-- Everything a run writes to stdout. -/
def runStdout (q : Bool) (terms0 : List Str) (dirs : List (List FsPath)) :
    List Out :=
  match searchMain q terms0 dirs with
  | Except.error (st, _) => st.out
  | Except.ok r => r.stdout

/-- Whether a file would match some term: its base name exists and some term
is a prefix of it. -/
def pathHasMatch (terms : List Str) (p : FsPath) : Bool :=
  match p.getLast? with
  | none => false
  | some nm => (findMatch terms nm).isSome

/-- The winning term of each matching file of each directory, in run order. -/
def matchedList (terms : List Str) : List (List FsPath) → List Str
  | [] => []
  | d :: ds =>
    d.filterMap (fun p => p.getLast?.bind (findMatch terms)) ++ matchedList terms ds

/-! ## Theorems -/

/-- Two prefixes of the same string that have the same length are equal. -/
theorem prefixes_eq_of_length_eq {t₁ t₂ name : Str} (h₁ : t₁ <+: name)
    (h₂ : t₂ <+: name) (hlen : t₁.length = t₂.length) : t₁ = t₂ := by
  rcases List.prefix_or_prefix_of_prefix h₁ h₂ with h | h
  · exact h.eq_of_length hlen
  · exact (h.eq_of_length hlen.symm).symm

/-- On a list sorted longest-first, the first prefix hit is a longest prefix
hit. -/
theorem find?_sorted_isLongest {name : Str} :
    ∀ {l : List Str}, l.Pairwise (fun a b => b.length ≤ a.length) →
      ∀ {t : Str}, l.find? (fun u => u.isPrefixOf name) = some t →
        t ∈ l ∧ t <+: name ∧ ∀ u ∈ l, u <+: name → u.length ≤ t.length := by
  intro l
  induction l with
  | nil => intro _ t h; simp [List.find?] at h
  | cons a l ih =>
    intro hp t h
    by_cases ha : a.isPrefixOf name
    · have hx : List.find? (fun u => u.isPrefixOf name) (a :: l) = some a := by
        simp [List.find?_cons, ha]
      rw [hx] at h
      injection h with h
      subst h
      refine ⟨List.mem_cons_self _ _, List.isPrefixOf_iff_prefix.mp ha, ?_⟩
      intro u hu _
      rcases List.mem_cons.mp hu with rfl | hu
      · exact le_refl _
      · exact (List.pairwise_cons.mp hp).1 u hu
    · have hx : List.find? (fun u => u.isPrefixOf name) (a :: l) =
          List.find? (fun u => u.isPrefixOf name) l := by
        simp [List.find?_cons, ha]
      rw [hx] at h
      obtain ⟨hmem, hpre, hmax⟩ := ih (List.pairwise_cons.mp hp).2 h
      refine ⟨List.mem_cons_of_mem _ hmem, hpre, ?_⟩
      intro u hu hupre
      rcases List.mem_cons.mp hu with rfl | hu
      · exact absurd ( List.isPrefixOf_iff_prefix.mpr hupre) ha
      · exact hmax u hu hupre

/-- `sortTerms` is a permutation of the input terms. -/
theorem sortTerms_perm (terms : List Str) : List.Perm (sortTerms terms) terms :=
  List.mergeSort_perm terms _

/-- `sortTerms` sorts the terms with longer terms first. -/
theorem sortTerms_sorted (terms : List Str) :
    (sortTerms terms).Pairwise (fun a b => b.length ≤ a.length) := by
  have h : (terms.mergeSort (fun a b : Str => decide (b.length ≤ a.length))).Pairwise
      (fun a b : Str => decide (b.length ≤ a.length)) :=
    List.sorted_mergeSort
      (fun a b c hab hbc => by
        simp only [decide_eq_true_eq] at *
        exact le_trans hbc hab)
      (fun a b => by
        simp only [Bool.or_eq_true, decide_eq_true_eq]
        exact Nat.le_total b.length a.length)
      terms
  exact h.imp (fun hab => of_decide_eq_true hab)

/-- C1: For every list of files and every list of search terms, sorting the
terms longest-first and, for each file, selecting the first term in that order
whose prefix matches the file's base name yields the same result as selecting,
for each file, the longest term among those that are a prefix of the file's
base name (no match when no term is a prefix). -/
theorem c1_first_match_sorted_eq_longest_match (terms : List Str)
    (names : List Str) :
    names.map (findMatch (sortTerms terms)) = names.map (longestPrefixMatch terms) := by
  apply List.map_congr_left
  intro name _
  unfold findMatch longestPrefixMatch
  cases hf : (sortTerms terms).find? (fun u => u.isPrefixOf name) with
  | none =>
    rw [List.find?_eq_none] at hf
    have hfil : terms.filter (fun t => t.isPrefixOf name) = [] := by
      rw [List.filter_eq_nil_iff]
      intro t ht
      exact hf t ((sortTerms_perm terms).mem_iff.mpr ht)
    rw [hfil]
    simp [List.argmax]
  | some t =>
    obtain ⟨hmem, hpre, hmax⟩ := find?_sorted_isLongest (sortTerms_sorted terms) hf
    have hmem' : t ∈ terms := (sortTerms_perm terms).mem_iff.mp hmem
    have htfil : t ∈ terms.filter (fun u => u.isPrefixOf name) := by
      rw [List.mem_filter]
      exact ⟨hmem', List.isPrefixOf_iff_prefix.mpr hpre⟩
    cases hg : (terms.filter (fun u => u.isPrefixOf name)).argmax List.length with
    | none =>
      rw [List.argmax_eq_none] at hg
      rw [hg] at htfil
      cases htfil
    | some t' =>
      have ht'mem : t' ∈ terms.filter (fun u => u.isPrefixOf name) :=
        List.argmax_mem hg
      have ht'pre : t' <+: name := by
        have := (List.mem_filter.mp ht'mem).2
        exact List.isPrefixOf_iff_prefix.mp this
      have h₁ : t.length ≤ t'.length := List.le_of_mem_argmax htfil hg
      have h₂ : t'.length ≤ t.length :=
        hmax t' ((sortTerms_perm terms).mem_iff.mpr (List.mem_filter.mp ht'mem).1) ht'pre
      have : t = t' := prefixes_eq_of_length_eq hpre ht'pre (le_antisymm h₁ h₂)
      rw [this]


/-- The inner term loop realises `findMatch`: the state is unchanged when no
term matches, and otherwise exactly one match is accounted, for the first
matching term in the given order. -/
theorem termLoop_eq (q : Bool) (p : FsPath) (name : Str) :
    ∀ (ts : List Str) (st : SearchState),
      termLoop q p name ts st =
        match findMatch ts name with
        | none => st
        | some t =>
          ⟨st.n_found + 1, insert t st.seen,
            st.out ++ if q then [] else
              [Out.matchLine (name.take t.length) (name.drop t.length) p]⟩ := by
  intro ts
  induction ts with
  | nil => intro st; simp [termLoop, findMatch, List.find?]
  | cons t ts ih =>
    intro st
    cases ht : t.isPrefixOf name with
    | true => simp [termLoop, findMatch, List.find?_cons, ht]
    | false =>
      simp only [termLoop, findMatch, List.find?_cons, ht, Bool.false_eq_true,
        if_false]
      simpa [findMatch] using ih st

/-- Per file, `n_found` grows by one exactly when some term matches. -/
theorem termLoop_n_found (q : Bool) (p : FsPath) (name : Str) (ts : List Str)
    (st : SearchState) :
    (termLoop q p name ts st).n_found =
      st.n_found + (if (findMatch ts name).isSome then 1 else 0) := by
  rw [termLoop_eq]
  cases h : findMatch ts name <;> simp

/-- In quiet mode the inner loop writes nothing. -/
theorem termLoop_true_out (p : FsPath) (name : Str) (ts : List Str)
    (st : SearchState) : (termLoop true p name ts st).out = st.out := by
  rw [termLoop_eq]
  cases h : findMatch ts name <;> simp

/-- When every path has a base name, the path loop never propagates
`Error::CouldntGetFileName`. -/
theorem pathLoop_snd_none (q : Bool) (ts : List Str) :
    ∀ (ps : List FsPath) (st : SearchState), (∀ p ∈ ps, p ≠ []) →
      (pathLoop q ts ps st).2 = none := by
  intro ps
  induction ps with
  | nil => intro st _; rfl
  | cons p ps ih =>
    intro st h
    have hp : p ≠ [] := h p (List.mem_cons_self _ _)
    cases hl : p.getLast? with
    | none => exact absurd (List.getLast?_eq_none_iff.mp hl) hp
    | some nm =>
      simp only [pathLoop, hl]
      split
      · rfl
      · exact ih _ (fun x hx => h x (List.mem_cons_of_mem _ hx))

/-- In either mode, the final count is positive exactly when it already was or
some walked file has a matching term. -/
theorem pathLoop_pos_iff (q : Bool) (ts : List Str) :
    ∀ (ps : List FsPath) (st : SearchState), (∀ p ∈ ps, p ≠ []) →
      (0 < (pathLoop q ts ps st).1.n_found ↔
        0 < st.n_found ∨ ps.any (pathHasMatch ts)) := by
  intro ps
  induction ps with
  | nil => intro st _; simp [pathLoop]
  | cons p ps ih =>
    intro st h
    have hp : p ≠ [] := h p (List.mem_cons_self _ _)
    cases hl : p.getLast? with
    | none => exact absurd (List.getLast?_eq_none_iff.mp hl) hp
    | some nm =>
      have hm : pathHasMatch ts p = (findMatch ts nm).isSome := by
        simp [pathHasMatch, hl]
      have hn := termLoop_n_found q p nm ts st
      simp only [pathLoop, hl]
      split
      · rename_i hbr
        constructor
        · intro _
          rw [hn] at hbr
          by_cases hs : (findMatch ts nm).isSome
          · right
            simp [List.any_cons, hm, hs]
          · left
            simpa [hs] using hbr.2
        · intro _
          exact hbr.2
      · rw [ih _ (fun x hx => h x (List.mem_cons_of_mem _ hx)), hn]
        by_cases hs : (findMatch ts nm).isSome
        · simp [List.any_cons, hm, hs, Nat.succ_pos]
        · simp [List.any_cons, hm, hs]

/-- When every path of every directory has a base name, the run never
propagates `Error::CouldntGetFileName`. -/
theorem dirLoop_snd_none (q : Bool) (ts : List Str) :
    ∀ (ds : List (List FsPath)) (st : SearchState),
      (∀ d ∈ ds, ∀ p ∈ d, p ≠ []) → (dirLoop q ts ds st).2 = none := by
  intro ds
  induction ds with
  | nil => intro st _; rfl
  | cons d ds ih =>
    intro st h
    have h1 := pathLoop_snd_none q ts d st (h d (List.mem_cons_self _ _))
    cases hpl : pathLoop q ts d st with
    | mk st' e =>
      rw [hpl] at h1
      simp only at h1
      subst h1
      simp only [dirLoop, hpl]
      exact ih st' (fun x hx => h x (List.mem_cons_of_mem _ hx))

/-- Across directories, the final count is positive exactly when some walked
file of some directory has a matching term. -/
theorem dirLoop_pos_iff (q : Bool) (ts : List Str) :
    ∀ (ds : List (List FsPath)) (st : SearchState),
      (∀ d ∈ ds, ∀ p ∈ d, p ≠ []) →
      (0 < (dirLoop q ts ds st).1.n_found ↔
        0 < st.n_found ∨ ds.any (fun d => d.any (pathHasMatch ts))) := by
  intro ds
  induction ds with
  | nil => intro st _; simp [dirLoop]
  | cons d ds ih =>
    intro st h
    have h1 := pathLoop_snd_none q ts d st (h d (List.mem_cons_self _ _))
    have h2 := pathLoop_pos_iff q ts d st (h d (List.mem_cons_self _ _))
    cases hpl : pathLoop q ts d st with
    | mk st' e =>
      rw [hpl] at h1 h2
      simp only at h1 h2
      subst h1
      simp only [dirLoop, hpl]
      rw [ih st' (fun x hx => h x (List.mem_cons_of_mem _ hx)), h2]
      simp only [List.any_cons, Bool.or_eq_true]
      tauto

/-- Without the quiet flag the loop visits every file: `n_found` counts the
matching files. -/
theorem pathLoop_false_n_found (ts : List Str) :
    ∀ (ps : List FsPath) (st : SearchState), (∀ p ∈ ps, p ≠ []) →
      (pathLoop false ts ps st).1.n_found =
        st.n_found + ps.countP (pathHasMatch ts) := by
  intro ps
  induction ps with
  | nil => intro st _; simp [pathLoop]
  | cons p ps ih =>
    intro st h
    have hp : p ≠ [] := h p (List.mem_cons_self _ _)
    cases hl : p.getLast? with
    | none => exact absurd (List.getLast?_eq_none_iff.mp hl) hp
    | some nm =>
      have hm : pathHasMatch ts p = (findMatch ts nm).isSome := by
        simp [pathHasMatch, hl]
      have hn := termLoop_n_found false p nm ts st
      simp only [pathLoop, hl, Bool.false_eq_true, false_and, if_false]
      rw [ih _ (fun x hx => h x (List.mem_cons_of_mem _ hx)), hn,
        List.countP_cons, hm]
      by_cases hs : (findMatch ts nm).isSome
      · simp [hs]
        omega
      · simp [hs]

/-- Without the quiet flag, `seen_terms` accumulates exactly the winning term
of every matching file, in run order. -/
theorem pathLoop_false_seen (ts : List Str) :
    ∀ (ps : List FsPath) (st : SearchState), (∀ p ∈ ps, p ≠ []) →
      (pathLoop false ts ps st).1.seen =
        st.seen ∪
          (ps.filterMap (fun p => p.getLast?.bind (findMatch ts))).toFinset := by
  intro ps
  induction ps with
  | nil => intro st _; simp [pathLoop]
  | cons p ps ih =>
    intro st h
    have hp : p ≠ [] := h p (List.mem_cons_self _ _)
    cases hl : p.getLast? with
    | none => exact absurd (List.getLast?_eq_none_iff.mp hl) hp
    | some nm =>
      simp only [pathLoop, hl, Bool.false_eq_true, false_and, if_false]
      rw [ih _ (fun x hx => h x (List.mem_cons_of_mem _ hx)), termLoop_eq,
        List.filterMap_cons]
      simp only [hl, Option.some_bind]
      cases hf : findMatch ts nm with
      | none => simp
      | some t =>
        simp only [List.toFinset_cons]
        rw [Finset.insert_union, Finset.union_insert]

/-- In quiet mode a single run of the path loop adds at most one match: the
loop breaks as soon as the count is positive. -/
theorem pathLoop_true_n_found_le (ts : List Str) :
    ∀ (ps : List FsPath) (st : SearchState),
      (pathLoop true ts ps st).1.n_found ≤ st.n_found + 1 := by
  intro ps
  induction ps with
  | nil => intro st; exact Nat.le_succ _
  | cons p ps ih =>
    intro st
    cases hl : p.getLast? with
    | none => simp only [pathLoop, hl]; exact Nat.le_succ _
    | some nm =>
      have hn := termLoop_n_found true p nm ts st
      simp only [pathLoop, hl]
      split
      · rw [hn]
        split <;> omega
      · rename_i hbr
        have hz : (termLoop true p nm ts st).n_found = 0 := by
          rcases Nat.eq_zero_or_pos (termLoop true p nm ts st).n_found with h0 | h0
          · exact h0
          · exact absurd ⟨trivial, h0⟩ hbr
        calc (pathLoop true ts ps (termLoop true p nm ts st)).1.n_found
            ≤ (termLoop true p nm ts st).n_found + 1 := ih _
          _ ≤ st.n_found + 1 := by omega

/-- In quiet mode each directory adds at most one match, so the count is
bounded by the number of directories. -/
theorem dirLoop_true_n_found_le (ts : List Str) :
    ∀ (ds : List (List FsPath)) (st : SearchState),
      (dirLoop true ts ds st).1.n_found ≤ st.n_found + ds.length := by
  intro ds
  induction ds with
  | nil => intro st; exact Nat.le_refl _
  | cons d ds ih =>
    intro st
    have hb := pathLoop_true_n_found_le ts d st
    cases hpl : pathLoop true ts d st with
    | mk st' e =>
      rw [hpl] at hb
      simp only at hb
      cases e with
      | some p =>
        simp only [dirLoop, hpl, List.length_cons]
        omega
      | none =>
        simp only [dirLoop, hpl, List.length_cons]
        calc (dirLoop true ts ds st').1.n_found ≤ st'.n_found + ds.length := ih _
          _ ≤ st.n_found + (ds.length + 1) := by omega

/-- In quiet mode the path loop writes nothing to stdout. -/
theorem pathLoop_true_out (ts : List Str) :
    ∀ (ps : List FsPath) (st : SearchState),
      (pathLoop true ts ps st).1.out = st.out := by
  intro ps
  induction ps with
  | nil => intro st; rfl
  | cons p ps ih =>
    intro st
    cases hl : p.getLast? with
    | none => simp only [pathLoop, hl]
    | some nm =>
      simp only [pathLoop, hl]
      split
      · exact termLoop_true_out p nm ts st
      · rw [ih _, termLoop_true_out]

/-- In quiet mode the whole directory loop writes nothing to stdout. -/
theorem dirLoop_true_out (ts : List Str) :
    ∀ (ds : List (List FsPath)) (st : SearchState),
      (dirLoop true ts ds st).1.out = st.out := by
  intro ds
  induction ds with
  | nil => intro st; rfl
  | cons d ds ih =>
    intro st
    have hout := pathLoop_true_out ts d st
    cases hpl : pathLoop true ts d st with
    | mk st' e =>
      rw [hpl] at hout
      cases e with
      | some p => simp only [dirLoop, hpl]; exact hout
      | none => simp only [dirLoop, hpl]; rw [ih _, hout]

/-- C2: When the quiet flag is set, the process exits with status 0 iff at
least one match was found, and with status 1 otherwise; equivalently, the
quiet-mode exit status is 0 exactly when a non-quiet run over the same files
and terms would report `n_found > 0`. -/
theorem c2_quiet_exit_status (terms0 : List Str) (dirs : List (List FsPath))
    (h : ∀ d ∈ dirs, ∀ p ∈ d, p ≠ []) :
    runExit true terms0 dirs = (if 0 < runCount false terms0 dirs then 0 else 1) ∧
    (runExit true terms0 dirs = 0 ↔ 0 < runCount false terms0 dirs) ∧
    (runExit true terms0 dirs = 1 ↔ runCount false terms0 dirs = 0) := by
  have hT0 := dirLoop_snd_none true (sortTerms terms0) dirs initState h
  have hF0 := dirLoop_snd_none false (sortTerms terms0) dirs initState h
  have hTp := dirLoop_pos_iff true (sortTerms terms0) dirs initState h
  have hFp := dirLoop_pos_iff false (sortTerms terms0) dirs initState h
  cases hdT : dirLoop true (sortTerms terms0) dirs initState with
  | mk stT eT =>
    cases hdF : dirLoop false (sortTerms terms0) dirs initState with
    | mk stF eF =>
      rw [hdT] at hT0 hTp
      rw [hdF] at hF0 hFp
      simp only at hT0 hF0
      subst hT0
      subst hF0
      simp [initState] at hTp hFp
      have hq : runExit true terms0 dirs = if 0 < stT.n_found then 0 else 1 := by
        simp [runExit, searchMain, hdT]
      have hc : runCount false terms0 dirs = stF.n_found := by
        simp [runCount, searchMain, hdF]
      have hiff : 0 < stT.n_found ↔ 0 < stF.n_found := hTp.trans hFp.symm
      rw [hq, hc]
      by_cases hpos : 0 < stF.n_found
      · simp [hpos, hiff.mpr hpos]
        omega
      · have hnt : ¬ 0 < stT.n_found := fun hx => hpos (hiff.mp hx)
        simp [hpos, hnt]
        omega

/-- Witness for C2 at a concrete input. -/
theorem c2_quiet_exit_status_witness :
    (∀ d ∈ [[[['a']]]], ∀ p ∈ d, p ≠ ([] : FsPath)) ∧
    runExit true [['a']] [[[['a']]]] =
      (if 0 < runCount false [['a']] [[[['a']]]] then 0 else 1) :=
  ⟨by decide, (c2_quiet_exit_status [['a']] [[[['a']]]] (by decide)).1⟩

/-- C3: Every file contributes at most one match: once some term is a prefix
of the file's base name, no further terms are tried for that file, so the
match count increases by at most one per file and the winning term is the
first matching term in sorted order. -/
theorem c3_one_match_per_file (q : Bool) (p : FsPath) (name : Str)
    (terms0 : List Str) (st : SearchState) :
    (termLoop q p name (sortTerms terms0) st).n_found ≤ st.n_found + 1 ∧
    termLoop q p name (sortTerms terms0) st =
      (match findMatch (sortTerms terms0) name with
       | none => st
       | some t =>
         ⟨st.n_found + 1, insert t st.seen,
           st.out ++ if q then [] else
             [Out.matchLine (name.take t.length) (name.drop t.length) p]⟩) := by
  constructor
  · rw [termLoop_n_found]
    split <;> omega
  · exact termLoop_eq q p name (sortTerms terms0) st

/-- C5: A filesystem error never aborts the whole walk: a failed entry is
skipped, and every path obtained by walking any entry of a directory is in
the walk of that directory, whatever the sibling entries are. -/
theorem c5_walk_error_isolation (dirPath : FsPath) (es : List Node) (e : Node)
    (p : FsPath) (h1 : e ∈ es) (h2 : p ∈ walkEntry dirPath e) :
    p ∈ walkEntries dirPath es := by
  induction es with
  | nil => cases h1
  | cons a es ih =>
    rcases List.mem_cons.mp h1 with rfl | h1'
    · exact List.mem_append_left _ h2
    · exact List.mem_append_right _ (ih h1')

/-- Witness for C5: the readable sibling file survives a failed entry and an
unreadable sibling directory. -/
theorem c5_walk_error_isolation_witness :
    [['f']] ∈ walkEntries [] [Node.badEntry, Node.dir ['u'] false [], Node.file ['f']] :=
  c5_walk_error_isolation [] _ (Node.file ['f']) [['f']]
    (by simp) (by simp [walkEntry])

/-- C6 counterexample: with two configured directories that each contain a
matching file, the quiet run counts two matches, so the walk does not stop
globally after the first match and `n_found` exceeds 1. -/
theorem c6_counterexample :
    runCount true [['a']] [[[['a']]], [[['a']]]] = 2 ∧
    ¬ runCount true [['a']] [[[['a']]], [[['a']]]] ≤ 1 := by
  have hs : sortTerms [['a']] = [['a']] := by simp [sortTerms]
  have h2 : runCount true [['a']] [[[['a']]], [[['a']]]] = 2 := by
    simp only [runCount, searchMain, hs]
    decide
  exact ⟨h2, by omega⟩

/-- C6 amended: in quiet mode the `break` only leaves the current directory's
path loop — once the count is positive the rest of that directory is skipped
(each run of the path loop adds at most one match) — but every subsequent
directory is still walked and may contribute one further match, so `n_found`
is bounded by the number of configured directories, not by 1. -/
theorem c6_amended (terms0 : List Str) (dirs : List (List FsPath)) :
    runCount true terms0 dirs ≤ dirs.length ∧
    ∀ (ps : List FsPath) (st : SearchState),
      (pathLoop true (sortTerms terms0) ps st).1.n_found ≤ st.n_found + 1 := by
  constructor
  · have hb := dirLoop_true_n_found_le (sortTerms terms0) dirs initState
    cases hdl : dirLoop true (sortTerms terms0) dirs initState with
    | mk st e =>
      rw [hdl] at hb
      simp only at hb
      cases e with
      | some p =>
        simp only [runCount, searchMain, hdl]
        simpa [initState] using hb
      | none =>
        simp only [runCount, searchMain, hdl]
        simpa [initState] using hb
  · exact fun ps st => pathLoop_true_n_found_le (sortTerms terms0) ps st

/-- C7: In quiet mode the program writes nothing to stdout: per-match
rendering and the end-of-run summary are both suppressed, in every branch
(category missing, file-name error, normal completion). -/
theorem c7_quiet_mode_silent (config : List (Str × List DirSpec)) (cat : Str)
    (terms0 : List Str) : (fullMain config cat true terms0).stdout = [] := by
  unfold fullMain
  cases hlk : List.lookup cat config with
  | none => rfl
  | some ds =>
    have hout := dirLoop_true_out (sortTerms terms0) (ds.map dirPaths) initState
    cases hdl : dirLoop true (sortTerms terms0) (ds.map dirPaths) initState with
    | mk st e =>
      rw [hdl] at hout
      simp only at hout
      have hst : st.out = [] := by simpa [initState] using hout
      cases e with
      | some p => simp [searchMain, hdl, hst]
      | none => simp [searchMain, hdl, hst]

/-- C8 counterexample: with an empty configuration and requested category
"x", the process does not print the usage message (it prints the
`CategoryNotFound` error instead), refuting the claim that usage is printed. -/
theorem c8_counterexample :
    List.lookup ['x'] ([] : List (Str × List DirSpec)) = none ∧
    ErrLine.usage ∉ (fullMain [] ['x'] false [['a']]).stderr := by
  constructor
  · rfl
  · decide

/-- C8 amended: when the requested category is not in the loaded
configuration the run is fatal: no directory is walked, the
`CategoryNotFound` error (not the usage message) is reported on stderr, and
the process exits with status 1.  The outcome is a constant independent of
the configured directories, so nothing is walked. -/
theorem c8_amended (config : List (Str × List DirSpec)) (cat : Str) (q : Bool)
    (terms0 : List Str) (h : List.lookup cat config = none) :
    fullMain config cat q terms0 =
      ⟨[], [ErrLine.errMsg (MainErr.categoryNotFound cat)], 1⟩ := by
  unfold fullMain
  rw [h]

/-- Witness for C8 amended at a concrete input. -/
theorem c8_amended_witness :
    fullMain [] ['x'] false [['a']] =
      ⟨[], [ErrLine.errMsg (MainErr.categoryNotFound ['x'])], 1⟩ :=
  c8_amended [] ['x'] false [['a']] rfl

/-- C9: Without the quiet flag, finding zero matches is not an error: if the
category lookup succeeds and the search run completes (no file-name error),
the process exits with status 0 regardless of whether anything matched. -/
theorem c9_nonquiet_exit_zero (config : List (Str × List DirSpec)) (cat : Str)
    (ds : List DirSpec) (terms0 : List Str) (r : RunOut)
    (h1 : List.lookup cat config = some ds)
    (h2 : searchMain false terms0 (ds.map dirPaths) = Except.ok r) :
    (fullMain config cat false terms0).exit = 0 := by
  cases hdl : dirLoop false (sortTerms terms0) (List.map dirPaths ds) initState with
  | mk st e =>
    simp only [searchMain, hdl] at h2
    cases e with
    | some p => cases h2
    | none =>
      cases h2
      simp [fullMain, h1, searchMain, hdl]

/-- Witness for C9 at a concrete input. -/
theorem c9_nonquiet_exit_zero_witness :
    (fullMain [(['c'], [])] ['c'] false []).exit = 0 :=
  c9_nonquiet_exit_zero [(['c'], [])] ['c'] [] [] ⟨[Out.foundLine 0], 0, ∅, ∅, 0⟩
    rfl
    (by
      have hs : sortTerms ([] : List Str) = [] := by simp [sortTerms]
      simp only [searchMain, hs]
      rfl)

/-- Without the quiet flag, `seen_terms` at the end of the directory loop is
exactly the initial set plus all winning terms. -/
theorem dirLoop_false_seen (ts : List Str) :
    ∀ (ds : List (List FsPath)) (st : SearchState),
      (∀ d ∈ ds, ∀ p ∈ d, p ≠ []) →
      (dirLoop false ts ds st).1.seen = st.seen ∪ (matchedList ts ds).toFinset := by
  intro ds
  induction ds with
  | nil => intro st _; simp [dirLoop, matchedList]
  | cons d ds ih =>
    intro st h
    have h0 := pathLoop_snd_none false ts d st (h d (List.mem_cons_self _ _))
    have hs := pathLoop_false_seen ts d st (h d (List.mem_cons_self _ _))
    cases hpl : pathLoop false ts d st with
    | mk st' e =>
      rw [hpl] at h0 hs
      simp only at h0 hs
      subst h0
      simp only [dirLoop, hpl]
      rw [ih st' (fun x hx => h x (List.mem_cons_of_mem _ hx)), hs, matchedList,
        List.toFinset_append, Finset.union_assoc]

/-- Without the quiet flag, the final count is the initial count plus the
number of matching files over all directories. -/
theorem dirLoop_false_n_found (ts : List Str) :
    ∀ (ds : List (List FsPath)) (st : SearchState),
      (∀ d ∈ ds, ∀ p ∈ d, p ≠ []) →
      (dirLoop false ts ds st).1.n_found =
        st.n_found + (ds.map (fun d => d.countP (pathHasMatch ts))).sum := by
  intro ds
  induction ds with
  | nil => intro st _; simp [dirLoop]
  | cons d ds ih =>
    intro st h
    have h0 := pathLoop_snd_none false ts d st (h d (List.mem_cons_self _ _))
    have hn := pathLoop_false_n_found ts d st (h d (List.mem_cons_self _ _))
    cases hpl : pathLoop false ts d st with
    | mk st' e =>
      rw [hpl] at h0 hn
      simp only at h0 hn
      subst h0
      simp only [dirLoop, hpl]
      rw [ih st' (fun x hx => h x (List.mem_cons_of_mem _ hx)), hn,
        List.map_cons, List.sum_cons]
      omega

/-- A term is in `matchedList` exactly when it wins for some file of some
directory. -/
theorem mem_matchedList {ts : List Str} {t : Str} :
    ∀ {ds : List (List FsPath)},
      t ∈ matchedList ts ds ↔
        ∃ d ∈ ds, ∃ p ∈ d, p.getLast?.bind (findMatch ts) = some t := by
  intro ds
  induction ds with
  | nil => simp [matchedList]
  | cons d ds ih =>
    simp only [matchedList, List.mem_append, List.mem_filterMap, ih,
      List.mem_cons]
    constructor
    · rintro (⟨p, hp, hf⟩ | ⟨d', hd', hrest⟩)
      · exact ⟨d, Or.inl rfl, p, hp, hf⟩
      · exact ⟨d', Or.inr hd', hrest⟩
    · rintro ⟨d', hd', p, hp, hf⟩
      rcases hd' with rfl | hd'
      · exact Or.inl ⟨p, hp, hf⟩
      · exact Or.inr ⟨d', hd', p, hp, hf⟩

/-- C4: The set of unmatched terms reported at the end of a run equals the
set difference between all given search terms and the terms that matched at
least one file during the run. -/
theorem c4_unseen_is_set_difference (terms0 : List Str)
    (dirs : List (List FsPath)) (r : RunOut)
    (h1 : ∀ d ∈ dirs, ∀ p ∈ d, p ≠ [])
    (h2 : searchMain false terms0 dirs = Except.ok r) :
    r.unseen = terms0.toFinset \ r.seen ∧
    (∀ t : Str, t ∈ r.seen ↔
      ∃ d ∈ dirs, ∃ p ∈ d,
        p.getLast?.bind (findMatch (sortTerms terms0)) = some t) := by
  have h0 := dirLoop_snd_none false (sortTerms terms0) dirs initState h1
  have hseen := dirLoop_false_seen (sortTerms terms0) dirs initState h1
  cases hdl : dirLoop false (sortTerms terms0) dirs initState with
  | mk st e =>
    rw [hdl] at h0 hseen
    simp only at h0 hseen
    subst h0
    simp only [searchMain, hdl] at h2
    cases h2
    have hseen' : st.seen = (matchedList (sortTerms terms0) dirs).toFinset := by
      simpa [initState] using hseen
    constructor
    · ext t
      simp only [List.mem_toFinset, List.mem_filter, Finset.mem_sdiff,
        (sortTerms_perm terms0).mem_iff, Bool.not_eq_eq_eq_not, Bool.not_true,
        decide_eq_false_iff_not]
    · intro t
      rw [hseen', List.mem_toFinset, mem_matchedList]

/-- Witness for C4 at a concrete input. -/
theorem c4_unseen_is_set_difference_witness :
    (∀ d ∈ [[[['a']]]], ∀ p ∈ d, p ≠ ([] : FsPath)) ∧
    ((⟨[Out.foundLine 0], 0, ∅, ∅, 0⟩ : RunOut).unseen =
        ([] : List Str).toFinset \ (⟨[Out.foundLine 0], 0, ∅, ∅, 0⟩ : RunOut).seen ∧
      (∀ t : Str, t ∈ (⟨[Out.foundLine 0], 0, ∅, ∅, 0⟩ : RunOut).seen ↔
        ∃ d ∈ [[[['a']]]], ∃ p ∈ d,
          p.getLast?.bind (findMatch (sortTerms ([] : List Str))) = some t)) :=
  ⟨by decide,
    c4_unseen_is_set_difference [] [[[['a']]]] ⟨[Out.foundLine 0], 0, ∅, ∅, 0⟩
      (by decide)
      (by
        have hs : sortTerms ([] : List Str) = [] := by simp [sortTerms]
        simp only [searchMain, hs]
        rfl)⟩

/-- In a list sorted longest-first that contains the empty string, the empty
string is the last element. -/
theorem getLast?_eq_nil_of_sorted :
    ∀ (l : List Str), l.Pairwise (fun a b => b.length ≤ a.length) →
      ([] : Str) ∈ l → l.getLast? = some [] := by
  intro l
  induction l with
  | nil => intro _ hm; cases hm
  | cons a l ih =>
    intro hp hm
    cases l with
    | nil =>
      rcases List.mem_cons.mp hm with h | h
      · rw [← h]; rfl
      · cases h
    | cons x xs =>
      rw [List.getLast?_cons_cons]
      have h' : ([] : Str) ∈ x :: xs := by
        rcases List.mem_cons.mp hm with h | h
        · have hx : x.length ≤ a.length :=
            (List.pairwise_cons.mp hp).1 x (List.mem_cons_self _ _)
          rw [← h] at hx
          simp only [List.length_nil, Nat.le_zero, List.length_eq_zero] at hx
          rw [hx]
          exact List.mem_cons_self _ _
        · exact h
      exact ih (List.pairwise_cons.mp hp).2 h'

/-- C10: An empty-string search term is a prefix of every base name: if the
term list contains the empty string, every walked file yields a match and
the non-quiet `n_found` equals the total number of files walked; the empty
term sorts last and wins only for names matched by no longer (nonempty)
term. -/
theorem c10_empty_term_matches_all (terms0 : List Str)
    (dirs : List (List FsPath))
    (h1 : ([] : Str) ∈ terms0) (h2 : ∀ d ∈ dirs, ∀ p ∈ d, p ≠ []) :
    runCount false terms0 dirs = (dirs.map List.length).sum ∧
    (sortTerms terms0).getLast? = some [] ∧
    (∀ name : Str, findMatch (sortTerms terms0) name = some [] →
      ∀ t ∈ terms0, t <+: name → t = []) := by
  have hmem : ([] : Str) ∈ sortTerms terms0 :=
    (sortTerms_perm terms0).mem_iff.mpr h1
  refine ⟨?_, ?_, ?_⟩
  · have hcnt := dirLoop_false_n_found (sortTerms terms0) dirs initState h2
    have h0 := dirLoop_snd_none false (sortTerms terms0) dirs initState h2
    cases hdl : dirLoop false (sortTerms terms0) dirs initState with
    | mk st e =>
      rw [hdl] at hcnt h0
      simp only at hcnt h0
      subst h0
      have hall : ∀ d ∈ dirs, d.countP (pathHasMatch (sortTerms terms0)) = d.length := by
        intro d hd
        rw [List.countP_eq_length]
        intro p hp
        have hpne : p ≠ [] := h2 d hd p hp
        cases hl : p.getLast? with
        | none => exact absurd (List.getLast?_eq_none_iff.mp hl) hpne
        | some nm =>
          simp only [pathHasMatch, hl, findMatch]
          rw [List.find?_isSome]
          exact ⟨[], hmem, List.isPrefixOf_nil_left⟩
      have hmap : dirs.map (fun d => d.countP (pathHasMatch (sortTerms terms0))) =
          dirs.map List.length := List.map_congr_left hall
      simp only [runCount, searchMain, hdl]
      rw [hcnt, hmap]
      simp [initState]
  · exact getLast?_eq_nil_of_sorted (sortTerms terms0) (sortTerms_sorted terms0) hmem
  · intro name hf t ht hpre
    obtain ⟨_, _, hmax⟩ := find?_sorted_isLongest (sortTerms_sorted terms0) hf
    have := hmax t ((sortTerms_perm terms0).mem_iff.mpr ht) hpre
    simpa [List.length_eq_zero] using this

/-- Witness for C10 at a concrete input. -/
theorem c10_empty_term_matches_all_witness :
    (([] : Str) ∈ [['a'], ([] : Str)] ∧
      ∀ d ∈ [[[['b']]]], ∀ p ∈ d, p ≠ ([] : FsPath)) ∧
    (runCount false [['a'], ([] : Str)] [[[['b']]]] =
        ([[[['b']]]].map List.length).sum ∧
      (sortTerms [['a'], ([] : Str)]).getLast? = some [] ∧
      (∀ name : Str, findMatch (sortTerms [['a'], ([] : Str)]) name = some [] →
        ∀ t ∈ [['a'], ([] : Str)], t <+: name → t = [])) :=
  ⟨⟨by decide, by decide⟩,
    c10_empty_term_matches_all [['a'], ([] : Str)] [[[['b']]]]
      (by decide) (by decide)⟩
